import Mathlib

set_option maxRecDepth 8000

/-!
Shallow embedding of the subtitle caption/timing core of the `syncscribe`
repository (`src/lib/SubtitleWriter.js`, `src/shift-timing.js`,
`src/unnamed/part_001` = `lib/Translator.js`).

JavaScript strings are modelled as `List Char`; JavaScript numbers flowing
through the timestamp-shift path are modelled as `Option ℤ`, where `none`
stands for `NaN` (every arithmetic operation on `NaN` yields `NaN`, and
`String(NaN) = "NaN"`).  Fractional seconds entering the formatters are
modelled as `ℚ`.
-/

namespace SyncScribe

/-- Modelled JS builtin: `String.prototype.trim` — strips whitespace from both
ends of a string (whitespace here is `Char.isWhitespace`: space, tab, CR, LF;
JS additionally trims some rarer Unicode space characters, which do not occur
in this code's data). -/
def jsTrim (l : List Char) : List Char :=
  ((l.dropWhile Char.isWhitespace).reverse.dropWhile Char.isWhitespace).reverse

/-- Value of a list of decimal digit characters, most significant first
(the numeric part of JS `Number(...)` on an integer numeral). -/
def digitsToNat (l : List Char) : ℕ :=
  l.foldl (fun acc c => acc * 10 + (c.toNat - 48)) 0

/-- Fuel-driven digit expansion (most significant first) used by
`natToChars`; the fuel makes the recursion structural. -/
def natToCharsGo : ℕ → ℕ → List Char
  | 0, _ => []
  | fuel + 1, n => if n = 0 then [] else natToCharsGo fuel (n / 10) ++ [Nat.digitChar (n % 10)]

/-- Modelled JS builtin: decimal rendering of a natural number,
as in `String(n)` / `Number.prototype.toString` for a non-negative integer. -/
def natToChars (n : ℕ) : List Char :=
  if n = 0 then ['0'] else natToCharsGo n n

/-- Modelled JS builtin: decimal rendering of an integer, as in `String(n)`
for an integer-valued JS number (note `String(-0) = "0"`, matching `ℤ`). -/
def intToChars (n : ℤ) : List Char :=
  if n < 0 then '-' :: natToChars n.natAbs else natToChars n.natAbs

/-- Modelled JS builtin: `String.prototype.padStart(size, '0')`, which is also
what `SubtitleWriter._pad`'s while-loop computes: left-pad with `'0'` up to
`size` characters. -/
def padStartZeros (l : List Char) (size : ℕ) : List Char :=
  List.replicate (size - l.length) '0' ++ l

/-- Modelled JS builtin: `Number(s)` on the numeral shapes that can reach the
timestamp parser: surrounding whitespace is ignored, the empty string is `0`,
an optionally `+`/`-`-signed run of decimal digits is its integer value, and
anything else is `NaN` (`none`).  (Fractional, exponent and hexadecimal
numeral forms never occur in well- or mal-formed `HH:MM:SS,mmm` fields dealt
with here and are mapped to `NaN` by this model.) -/
def jsNumber (s : List Char) : Option ℤ :=
  let t := jsTrim s
  if t = [] then some 0
  else if t.head? = some '-' then
    (if t.tail ≠ [] ∧ t.tail.all Char.isDigit then some (-(digitsToNat t.tail : ℤ)) else none)
  else if t.head? = some '+' then
    (if t.tail ≠ [] ∧ t.tail.all Char.isDigit then some ((digitsToNat t.tail : ℤ)) else none)
  else if t.all Char.isDigit then some ((digitsToNat t : ℤ)) else none

/-- JS `+` on possibly-`NaN` integer-valued numbers. -/
def jsAdd (a b : Option ℤ) : Option ℤ :=
  match a, b with
  | some x, some y => some (x + y)
  | _, _ => none

/-- JS `*` on possibly-`NaN` integer-valued numbers. -/
def jsMul (a b : Option ℤ) : Option ℤ :=
  match a, b with
  | some x, some y => some (x * y)
  | _, _ => none

/-- JS `%` (truncated remainder) by a constant; `NaN % b = NaN`. -/
def jsTmod (a : Option ℤ) (b : ℤ) : Option ℤ := a.map (fun x => x.tmod b)

/-- JS `Math.floor(a / b)` for integer `a`; `Math.floor(NaN / b) = NaN`. -/
def jsFdiv (a : Option ℤ) (b : ℤ) : Option ℤ := a.map (fun x => x.fdiv b)

/-- JS `a < 0` test; `NaN < 0` is `false`. -/
def jsLtZero (a : Option ℤ) : Bool :=
  match a with
  | some x => decide (x < 0)
  | none => false

/-- Modelled JS builtin: `String(x)` for a possibly-`NaN` integer-valued
number (`String(NaN) = "NaN"`). -/
def numToChars (a : Option ℤ) : List Char :=
  match a with
  | some n => intToChars n
  | none => ['N', 'a', 'N']

/-- Modelled JS builtin: `Array.prototype.join(sep)` / template joining with a
one-character separator (`[].join = ""`, `[a].join = a`). -/
def joinStr (sep : Char) : List (List Char) → List Char
  | [] => []
  | [w] => w
  | w :: ws => w ++ sep :: joinStr sep ws

/-! ## `src/lib/SubtitleWriter.js` -/

/-- `SubtitleWriter._formatSRTTimestamp(seconds)` (lines 81–92): seconds (a
float, modelled `ℚ`) to `HH:MM:SS,mmm`.  `Math.floor` is `Rat.floor` /
`Int.fdiv`; JS `%` is `Int.tmod`.  Note: no clamping of negative input. -/
def formatSRTTimestamp (seconds : ℚ) : List Char :=
  let totalMilliseconds : ℤ := Rat.floor (seconds * 1000)
  let milliseconds := totalMilliseconds.tmod 1000
  let totalSeconds := totalMilliseconds.fdiv 1000
  let secs := totalSeconds.tmod 60
  let totalMinutes := totalSeconds.fdiv 60
  let mins := totalMinutes.tmod 60
  let hours := totalMinutes.fdiv 60
  padStartZeros (intToChars hours) 2 ++ ':' ::
    padStartZeros (intToChars mins) 2 ++ ':' ::
      padStartZeros (intToChars secs) 2 ++ ',' ::
        padStartZeros (intToChars milliseconds) 3

/-- `SubtitleWriter._formatVTTTimestamp(seconds)` (lines 191–202): identical
computation with a `'.'` sub-second separator. -/
def formatVTTTimestamp (seconds : ℚ) : List Char :=
  let totalMilliseconds : ℤ := Rat.floor (seconds * 1000)
  let milliseconds := totalMilliseconds.tmod 1000
  let totalSeconds := totalMilliseconds.fdiv 1000
  let secs := totalSeconds.tmod 60
  let totalMinutes := totalSeconds.fdiv 60
  let mins := totalMinutes.tmod 60
  let hours := totalMinutes.fdiv 60
  padStartZeros (intToChars hours) 2 ++ ':' ::
    padStartZeros (intToChars mins) 2 ++ ':' ::
      padStartZeros (intToChars secs) 2 ++ '.' ::
        padStartZeros (intToChars milliseconds) 3

/-- The word-accumulation loop of `SubtitleWriter._splitTextIntoLines`
(lines 123–137), with the final flush of `currentLine` (lines 140–142).
State: the words still to process, the `lines` array, and `currentLine`.
JS string truthiness (`if (currentLine)`) is the `≠ []` test. -/
def greedyWrap (maxLength : ℕ) : List (List Char) → List (List Char) → List Char → List (List Char)
  | [], lines, currentLine =>
      if currentLine ≠ [] then lines ++ [jsTrim currentLine] else lines
  | word :: words, lines, currentLine =>
      if (jsTrim (currentLine ++ ' ' :: word)).length > maxLength then
        if currentLine ≠ [] then
          greedyWrap maxLength words (lines ++ [jsTrim currentLine]) word
        else
          greedyWrap maxLength words (lines ++ [word]) []
      else
        greedyWrap maxLength words lines
          (if currentLine ≠ [] then currentLine ++ ' ' :: word else word)

/-- `SubtitleWriter._splitTextIntoLines(text, maxLength)` (lines 113–154):
short text is returned as one line; otherwise greedy wrapping, collapsed to a
two-line split of the original word list at `Math.ceil(words.length / 2)`
whenever the greedy result has more than 2 lines. -/
def splitTextIntoLines (text : List Char) (maxLength : ℕ) : List (List Char) :=
  if text.length ≤ maxLength then [text]
  else
    let words := text.splitOn ' '
    let lines := greedyWrap maxLength words [] []
    if lines.length > 2 then
      let halfLength := (words.length + 1) / 2
      [joinStr ' ' (words.take halfLength), joinStr ' ' (words.drop halfLength)]
    else lines

/-- A transcription segment as used by `SubtitleWriter` and `Translator`
(fields `id`, `start`, `end`, `text`, `tokens`, `confidence`); `tokens` and
`confidence` may be absent (`undefined`/`null`), modelled by `Option`. -/
structure Segment where
  id : ℕ
  start : ℚ
  stop : ℚ
  text : List Char
  tokens : Option (List ℕ)
  confidence : Option ℚ
deriving DecidableEq, Repr

/-- `segments.map((segment, index) => ...)` — map with the element's index. -/
def mapWithIndex (f : ℕ → α → β) : ℕ → List α → List β
  | _, [] => []
  | i, a :: as => f i a :: mapWithIndex f (i + 1) as

/-- The lines of one SRT block of `SubtitleWriter._generateSRT`
(lines 62–67): sequence number, `"{start} --> {end}"`, the wrapped text
lines, and the empty separator line. -/
def srtBlockLines (index : ℕ) (segment : Segment) : List (List Char) :=
  [natToChars (index + 1),
   formatSRTTimestamp segment.start ++ " --> ".toList ++ formatSRTTimestamp segment.stop] ++
    splitTextIntoLines segment.text 42 ++ [[]]

/-- `SubtitleWriter._generateSRT(segments)` (lines 52–73): each block's lines
joined with `'\n'`, and the blocks joined with `'\n'`. -/
def generateSRT (segments : List Segment) : List Char :=
  joinStr '\n' (mapWithIndex (fun index segment => joinStr '\n' (srtBlockLines index segment)) 0 segments)

/-! ## `src/shift-timing.js` -/

/-- `parseTimestamp(timestamp)` (lines 24–28): split on `','` into `time` and
`ms` (destructuring; a missing part is `undefined`, and `Number(undefined)`
is `NaN`), split `time` on `':'` and map `Number` over it (missing
`hours`/`minutes`/`seconds` behave as `NaN` in the arithmetic), and return
`(hours*3600 + minutes*60 + seconds)*1000 + Number(ms)`. -/
def parseTimestamp (timestamp : List Char) : Option ℤ :=
  let parts := timestamp.splitOn ','
  let time := (parts.get? 0).getD []      -- split always yields at least one part
  let nums := (time.splitOn ':').map jsNumber
  let hours := (nums.get? 0).getD none
  let minutes := (nums.get? 1).getD none
  let seconds := (nums.get? 2).getD none
  let ms := match parts.get? 1 with
    | some s => jsNumber s
    | none => none
  jsAdd (jsMul (jsAdd (jsAdd (jsMul hours (some 3600)) (jsMul minutes (some 60))) seconds) (some 1000)) ms

/-- `formatTimestamp(totalMs)` (lines 34–48): clamp negative input to `0`
(`NaN < 0` is false, so `NaN` is not clamped), then decompose into
hours/minutes/seconds/milliseconds and zero-pad.  On `NaN` this prints
`"NaN:NaN:NaN,NaN"`. -/
def formatTimestamp (totalMs : Option ℤ) : List Char :=
  let t := if jsLtZero totalMs then some 0 else totalMs
  let ms := jsTmod t 1000
  let totalSeconds := jsFdiv t 1000
  let seconds := jsTmod totalSeconds 60
  let totalMinutes := jsFdiv totalSeconds 60
  let minutes := jsTmod totalMinutes 60
  let hours := jsFdiv totalMinutes 60
  padStartZeros (numToChars hours) 2 ++ ':' ::
    padStartZeros (numToChars minutes) 2 ++ ':' ::
      padStartZeros (numToChars seconds) 2 ++ ',' ::
        padStartZeros (numToChars ms) 3

/-- Modelled JS builtin: `String.prototype.includes(pat)` — contiguous
substring containment. -/
def containsSub (pat : List Char) : List Char → Bool
  | [] => pat.isEmpty
  | c :: rest => pat.isPrefixOf (c :: rest) || containsSub pat rest

/-- The test `line.includes('-->')` of `shiftSubtitles` (line 59). -/
def includesArrow (line : List Char) : Bool :=
  containsSub "-->".toList line

/-- The timing-line branch of `shiftSubtitles` (lines 60–68):
`const [start, arrow, end] = line.split(' ')`, parse both timestamps, add the
offset, and rebuild the line.  When the line has fewer than three
space-separated fields, `end` is `undefined` and `parseTimestamp(undefined)`
throws a `TypeError` (`undefined.split`), modelled by `none`. -/
def shiftTimingLine (line : List Char) (offsetMs : ℤ) : Option (List Char) :=
  let parts := line.splitOn ' '
  match parts.get? 0, parts.get? 2 with
  | some start, some stop =>
      let startMs := parseTimestamp start
      let endMs := parseTimestamp stop
      let newStart := formatTimestamp (jsAdd startMs (some offsetMs))
      let newEnd := formatTimestamp (jsAdd endMs (some offsetMs))
      some (newStart ++ " --> ".toList ++ newEnd)
  | _, _ => none

/-- The per-line loop of `shiftSubtitles` (lines 57–72); an exception thrown
on any line aborts the whole loop (`none`). -/
def shiftLines (offsetMs : ℤ) : List (List Char) → Option (List (List Char))
  | [] => some []
  | line :: rest =>
      match (if includesArrow line then shiftTimingLine line offsetMs else some line) with
      | none => none
      | some l =>
          match shiftLines offsetMs rest with
          | none => none
          | some ls => some (l :: ls)

/-- `shiftSubtitles(content, offsetMs)` (lines 53–75): split on `'\n'`,
process every line, join with `'\n'`; `none` models the `TypeError` abort. -/
def shiftSubtitles (content : List Char) (offsetMs : ℤ) : Option (List Char) :=
  (shiftLines offsetMs (content.splitOn '\n')).map (joinStr '\n')

/-- The shift entry point on a seconds offset: `main` (line 95) computes
`offsetMs = Math.round(offsetSeconds * 1000)` and calls `shiftSubtitles`
(JS `Math.round` rounds half-up, i.e. `Math.round(x) = Math.floor(x + 1/2)`). -/
def shiftSeconds (content : List Char) (offsetSeconds : ℚ) : Option (List Char) :=
  shiftSubtitles content (Rat.floor (offsetSeconds * 1000 + 1 / 2))

/-! ## `src/unnamed/part_001` (`lib/Translator.js`) -/

/-- Modelled JS builtin: the regular expression match
`line.match(/^\[(\d+)\]\s*(.+)$/)` of `Translator._translateAllSegments`
(line 106): a `'['`, one or more digits, `']'`, then greedy whitespace
followed by at least one character.  Returns the parsed index and the
captured text.  (When everything after `']'` is whitespace, the greedy `\s*`
backtracks one character so that `.+` can match, leaving a single whitespace
character as the capture.) -/
def matchIndexLine (line : List Char) : Option (ℕ × List Char) :=
  match line with
  | '[' :: rest =>
      let ds := rest.takeWhile Char.isDigit
      if ds = [] then none
      else
        match rest.drop ds.length with
        | ']' :: rest2 =>
            if rest2 = [] then none
            else
              let t := rest2.dropWhile Char.isWhitespace
              if t = [] then some (digitsToNat ds, rest2.drop (rest2.length - 1))
              else some (digitsToNat ds, t)
        | _ => none
  | _ => none

/-- The response-parsing loop of `Translator._translateAllSegments`
(lines 99–122): trim the response, split on `'\n'`, drop blank lines, and for
every line matching `[index] text` with `segments[index]` defined, emit a
segment carrying the original's timing and the translated text
(`tokens: segments[index].tokens || []`, and `confidence:
segments[index].confidence || null`, where a `0` confidence is falsy). -/
def parsedTranslations (segments : List Segment) (response : List Char) : List Segment :=
  let translatedLines := ((jsTrim response).splitOn '\n').filter (fun l => jsTrim l ≠ [])
  translatedLines.filterMap (fun line =>
    match matchIndexLine line with
    | some (index, captured) =>
        match segments.get? index with
        | some orig =>
            some { id := orig.id, start := orig.start, stop := orig.stop,
                   text := jsTrim captured,
                   tokens := some (orig.tokens.getD []),
                   confidence := match orig.confidence with
                     | some c => if c = 0 then none else some c
                     | none => none }
        | none => none
    | none => none)

/-- `Translator._translateAllSegments` merge result (lines 124–137): if the
parsed translations do not number exactly `segments.length`, build
`finalSegments` with `finalSegments[i] = translatedSegments[i] ||
{...segments[i]}` for `i < segments.length`; otherwise return the parsed
translations. -/
def translateAllSegments (segments : List Segment) (response : List Char) : List Segment :=
  let translatedSegments := parsedTranslations segments response
  if translatedSegments.length ≠ segments.length then
    List.ofFn (fun i : Fin segments.length =>
      match translatedSegments.get? i.val with
      | some t => t
      | none => segments.get i)
  else translatedSegments

/-! ## Basic lemmas about the decimal rendering and `Number` parsing -/

theorem natToCharsGo_eq (fuel n : ℕ) (h : n ≤ fuel) :
    natToCharsGo fuel n = ((Nat.digits 10 n).map Nat.digitChar).reverse := by
  induction fuel generalizing n with
  | zero =>
      interval_cases n
      simp [natToCharsGo]
  | succ fuel ih =>
      rw [natToCharsGo]
      by_cases h0 : n = 0
      · simp [h0]
      · have hrec : n / 10 ≤ fuel := by omega
        rw [if_neg h0, ih (n / 10) hrec,
          Nat.digits_def' (by norm_num : (1:ℕ) < 10) (Nat.pos_of_ne_zero h0)]
        simp

theorem natToChars_eq (n : ℕ) :
    natToChars n = if n = 0 then ['0'] else ((Nat.digits 10 n).map Nat.digitChar).reverse := by
  unfold natToChars
  by_cases h0 : n = 0
  · simp [h0]
  · rw [if_neg h0, if_neg h0, natToCharsGo_eq n n le_rfl]

theorem digitChar_isDigit {d : ℕ} (h : d < 10) : (Nat.digitChar d).isDigit = true := by
  interval_cases d <;> decide

theorem digitChar_toNat {d : ℕ} (h : d < 10) : (Nat.digitChar d).toNat - 48 = d := by
  interval_cases d <;> decide

theorem mem_natToChars_isDigit {n : ℕ} {c : Char} (hc : c ∈ natToChars n) : c.isDigit = true := by
  rw [natToChars_eq] at hc
  by_cases h0 : n = 0
  · rw [if_pos h0] at hc
    simp only [List.mem_singleton] at hc
    subst hc; decide
  · rw [if_neg h0] at hc
    simp only [List.mem_reverse, List.mem_map] at hc
    obtain ⟨d, hd, rfl⟩ := hc
    exact digitChar_isDigit (Nat.digits_lt_base (by norm_num) hd)

theorem natToChars_ne_nil (n : ℕ) : natToChars n ≠ [] := by
  rw [natToChars_eq]
  by_cases h0 : n = 0
  · simp [h0]
  · simp only [if_neg h0, ne_eq, List.reverse_eq_nil_iff, List.map_eq_nil_iff]
    exact Nat.digits_ne_nil_iff_ne_zero.mpr h0

theorem digitsToNat_natToChars (n : ℕ) : digitsToNat (natToChars n) = n := by
  rw [natToChars_eq]
  by_cases h0 : n = 0
  · simp [h0, digitsToNat]
  · rw [if_neg h0]
    unfold digitsToNat
    rw [List.foldl_reverse, List.foldr_map]
    have key : ∀ L : List ℕ, (∀ d ∈ L, d < 10) →
        L.foldr (fun x y => y * 10 + ((Nat.digitChar x).toNat - 48)) 0 = Nat.ofDigits 10 L := by
      intro L
      induction L with
      | nil => intro _; simp [Nat.ofDigits]
      | cons d L ih =>
          intro hL
          rw [List.foldr_cons, Nat.ofDigits_cons,
            ih (fun x hx => hL x (List.mem_cons_of_mem d hx)),
            digitChar_toNat (hL d (List.mem_cons_self d L))]
          ring
    rw [key _ (fun d hd => Nat.digits_lt_base (by norm_num) hd), Nat.ofDigits_digits]

theorem digitsToNat_replicate_zero_append (k : ℕ) (l : List Char) :
    digitsToNat (List.replicate k '0' ++ l) = digitsToNat l := by
  unfold digitsToNat
  rw [List.foldl_append]
  congr 1
  induction k with
  | zero => rfl
  | succ k ih => simpa [List.replicate_succ] using ih

theorem isDigit_not_whitespace {c : Char} (h : c.isDigit = true) : c.isWhitespace = false := by
  by_contra hw
  rw [Bool.not_eq_false] at hw
  simp only [Char.isWhitespace, Bool.or_eq_true, decide_eq_true_eq] at hw
  rcases hw with (((rfl | rfl) | rfl) | rfl) <;> simp at h

theorem isDigit_ne_of {c c' : Char} (h : c.isDigit = true) (h' : c'.isDigit = false) :
    c ≠ c' := by
  intro rfl_eq
  rw [rfl_eq] at h
  rw [h] at h'
  exact Bool.noConfusion h'

theorem dropWhile_eq_self_of_none {p : Char → Bool} {l : List Char}
    (h : ∀ c ∈ l, p c = false) : l.dropWhile p = l := by
  cases l with
  | nil => rfl
  | cons a l => rw [List.dropWhile_cons, h a (List.mem_cons_self a l)]; simp

theorem jsTrim_eq_self {l : List Char} (h : ∀ c ∈ l, c.isWhitespace = false) :
    jsTrim l = l := by
  unfold jsTrim
  rw [dropWhile_eq_self_of_none h,
    dropWhile_eq_self_of_none (fun c hc => h c (List.mem_reverse.mp hc)), List.reverse_reverse]

theorem mem_padStartZeros {l : List Char} {k : ℕ} {c : Char}
    (hc : c ∈ padStartZeros l k) : c = '0' ∨ c ∈ l := by
  unfold padStartZeros at hc
  rcases List.mem_append.mp hc with h | h
  · exact Or.inl (List.eq_of_mem_replicate h)
  · exact Or.inr h

theorem mem_padStartZeros_natToChars_isDigit {n k : ℕ} {c : Char}
    (hc : c ∈ padStartZeros (natToChars n) k) : c.isDigit = true := by
  rcases mem_padStartZeros hc with rfl | h
  · decide
  · exact mem_natToChars_isDigit h

theorem padStartZeros_ne_nil {l : List Char} {k : ℕ} (h : l ≠ []) :
    padStartZeros l k ≠ [] := by
  unfold padStartZeros
  simp [h]

theorem jsNumber_all_digits {l : List Char} (h1 : l ≠ [])
    (h2 : ∀ c ∈ l, c.isDigit = true) : jsNumber l = some ((digitsToNat l : ℤ)) := by
  unfold jsNumber
  have htrim : jsTrim l = l := jsTrim_eq_self (fun c hc => isDigit_not_whitespace (h2 c hc))
  rw [htrim]
  obtain ⟨a, l', rfl⟩ := List.exists_cons_of_ne_nil h1
  have ha : a.isDigit = true := h2 a (List.mem_cons_self a l')
  have hminus : a ≠ '-' := isDigit_ne_of ha (by decide)
  have hplus : a ≠ '+' := isDigit_ne_of ha (by decide)
  rw [if_neg (by simp), if_neg (by simp [hminus]), if_neg (by simp [hplus]),
    if_pos (by simpa [List.all_eq_true] using h2)]

theorem jsNumber_padStartZeros (n k : ℕ) :
    jsNumber (padStartZeros (natToChars n) k) = some ((n : ℤ)) := by
  rw [jsNumber_all_digits (padStartZeros_ne_nil (natToChars_ne_nil n))
    (fun c hc => mem_padStartZeros_natToChars_isDigit hc)]
  unfold padStartZeros
  rw [digitsToNat_replicate_zero_append, digitsToNat_natToChars]

/-! ## Lemmas about `joinStr` and `List.splitOn` -/

theorem joinStr_nil (c : Char) : joinStr c [] = [] := rfl

theorem joinStr_single (c : Char) (w : List Char) : joinStr c [w] = w := rfl

theorem joinStr_cons_cons (c : Char) (w x : List Char) (ls : List (List Char)) :
    joinStr c (w :: x :: ls) = w ++ c :: joinStr c (x :: ls) := rfl

theorem joinStr_eq_intercalate (c : Char) : ∀ ls : List (List Char), joinStr c ls = [c].intercalate ls
  | [] => by simp [joinStr_nil, List.intercalate]
  | [w] => by simp [joinStr_single, List.intercalate]
  | w :: x :: ls => by
      rw [joinStr_cons_cons, joinStr_eq_intercalate c (x :: ls)]
      simp [List.intercalate]

theorem joinStr_splitOn (c : Char) (l : List Char) : joinStr c (l.splitOn c) = l := by
  rw [joinStr_eq_intercalate, List.intercalate_splitOn]

theorem splitOn_joinStr {c : Char} {ls : List (List Char)} (hne : ls ≠ [])
    (h : ∀ w ∈ ls, c ∉ w) : (joinStr c ls).splitOn c = ls := by
  rw [joinStr_eq_intercalate, List.splitOn_intercalate _ c h hne]

theorem splitOn_ne_nil (c : Char) (l : List Char) : l.splitOn c ≠ [] :=
  List.splitOnP_ne_nil _ l

theorem splitOn_append_sep {c : Char} {A : List Char} (B : List Char) (h : c ∉ A) :
    (A ++ c :: B).splitOn c = A :: B.splitOn c :=
  List.splitOnP_first _ A (fun x hx => by simp; exact fun e => h (e ▸ hx)) c (by simp) B

theorem splitOn_no_sep {c : Char} {l : List Char} (h : c ∉ l) : l.splitOn c = [l] :=
  List.splitOnP_eq_single _ l (fun x hx => by simp; exact fun e => h (e ▸ hx))

theorem joinStr_append (c : Char) :
    ∀ (A B : List (List Char)), A ≠ [] → B ≠ [] →
      joinStr c (A ++ B) = joinStr c A ++ c :: joinStr c B
  | [], _, hA, _ => absurd rfl hA
  | [w], B, _, hB => by
      cases B with
      | nil => exact absurd rfl hB
      | cons b bs => rw [joinStr_single, List.singleton_append, joinStr_cons_cons]
  | w :: x :: A, B, _, hB => by
      have h1 : (w :: x :: A) ++ B = w :: x :: (A ++ B) := rfl
      have h2 : x :: (A ++ B) = (x :: A) ++ B := rfl
      rw [h1, joinStr_cons_cons, h2, joinStr_append c (x :: A) B (by simp) hB,
        joinStr_cons_cons]
      simp

theorem mem_joinStr {c x : Char} :
    ∀ {ls : List (List Char)}, x ∈ joinStr c ls → (∃ w ∈ ls, x ∈ w) ∨ x = c
  | [], h => by simp [joinStr_nil] at h
  | [w], h => by
      rw [joinStr_single] at h
      exact Or.inl ⟨w, List.mem_singleton_self w, h⟩
  | w :: y :: ls, h => by
      rw [joinStr_cons_cons] at h
      rcases List.mem_append.mp h with h | h
      · exact Or.inl ⟨w, List.mem_cons_self _ _, h⟩
      · rcases List.mem_cons.mp h with rfl | h
        · exact Or.inr rfl
        · rcases mem_joinStr h with ⟨v, hv, hx⟩ | rfl
          · exact Or.inl ⟨v, List.mem_cons_of_mem _ hv, hx⟩
          · exact Or.inr rfl

theorem mem_joinStr_of_mem {c x : Char} {w : List Char} :
    ∀ {ls : List (List Char)}, w ∈ ls → x ∈ w → x ∈ joinStr c ls
  | [], hw, _ => by simp at hw
  | [v], hw, hx => by
      rw [List.mem_singleton] at hw
      rw [joinStr_single]
      exact hw ▸ hx
  | v :: y :: ls, hw, hx => by
      rw [joinStr_cons_cons]
      rcases List.mem_cons.mp hw with rfl | hw
      · exact List.mem_append.mpr (Or.inl hx)
      · exact List.mem_append.mpr (Or.inr (List.mem_cons_of_mem _
          (mem_joinStr_of_mem hw hx)))

theorem mem_of_mem_splitOn {c : Char} {l w : List Char} {x : Char}
    (hw : w ∈ l.splitOn c) (hx : x ∈ w) : x ∈ l := by
  have h : x ∈ joinStr c (l.splitOn c) := mem_joinStr_of_mem hw hx
  rwa [joinStr_splitOn] at h

theorem splitOn_sep_not_mem (c : Char) (l : List Char) : ∀ w ∈ l.splitOn c, c ∉ w := by
  induction l with
  | nil =>
      intro w hw
      simp only [List.splitOn_nil, List.mem_singleton] at hw
      subst hw; simp
  | cons a l ih =>
      intro w hw
      rw [List.splitOn, List.splitOnP_cons] at hw
      by_cases hac : a = c
      · rw [if_pos (by simp [hac])] at hw
        rcases List.mem_cons.mp hw with rfl | hw
        · simp
        · exact ih w hw
      · rw [if_neg (by simp [hac])] at hw
        obtain ⟨hd, tl, heq⟩ : ∃ hd tl, l.splitOnP (fun b => b == c) = hd :: tl := by
          cases hsp : l.splitOnP (fun b => b == c) with
          | nil => exact absurd hsp (List.splitOnP_ne_nil _ l)
          | cons hd tl => exact ⟨hd, tl, rfl⟩
        rw [heq] at hw
        simp only [List.modifyHead, List.mem_cons] at hw
        rcases hw with rfl | hw
        · intro hc
          rcases List.mem_cons.mp hc with heqc | hc
          · exact hac heqc.symm
          · exact ih hd (by rw [List.splitOn, heq]; exact List.mem_cons_self _ _) hc
        · exact ih w (by rw [List.splitOn, heq]; exact List.mem_cons_of_mem _ hw)

/-! ## Structure of the formatted timestamps -/

theorem intTmod_cast_1000 (a : ℕ) : (a : ℤ).tmod 1000 = ((a % 1000 : ℕ) : ℤ) := by
  rw [Int.tmod_eq_emod (Int.ofNat_nonneg a) (by norm_num)]
  omega

theorem intTmod_cast_60 (a : ℕ) : (a : ℤ).tmod 60 = ((a % 60 : ℕ) : ℤ) := by
  rw [Int.tmod_eq_emod (Int.ofNat_nonneg a) (by norm_num)]
  omega

theorem intFdiv_cast_1000 (a : ℕ) : (a : ℤ).fdiv 1000 = ((a / 1000 : ℕ) : ℤ) := by
  rw [Int.fdiv_eq_ediv _ (by norm_num)]
  omega

theorem intFdiv_cast_60 (a : ℕ) : (a : ℤ).fdiv 60 = ((a / 60 : ℕ) : ℤ) := by
  rw [Int.fdiv_eq_ediv _ (by norm_num)]
  omega

theorem intToChars_natCast (n : ℕ) : intToChars ((n : ℤ)) = natToChars n := by
  unfold intToChars
  rw [if_neg (not_lt.mpr (Int.ofNat_nonneg n)), Int.natAbs_ofNat]

theorem formatSRTTimestamp_eq_of_floor {x : ℚ} {N : ℕ} (h : Rat.floor (x * 1000) = (N : ℤ)) :
    formatSRTTimestamp x =
      padStartZeros (natToChars (N / 1000 / 60 / 60)) 2 ++ ':' ::
        padStartZeros (natToChars (N / 1000 / 60 % 60)) 2 ++ ':' ::
          padStartZeros (natToChars (N / 1000 % 60)) 2 ++ ',' ::
            padStartZeros (natToChars (N % 1000)) 3 := by
  simp only [formatSRTTimestamp, h, intTmod_cast_1000, intFdiv_cast_1000, intTmod_cast_60,
    intFdiv_cast_60, intToChars_natCast]

theorem mem_intToChars {z : ℤ} {c : Char} (h : c ∈ intToChars z) :
    c = '-' ∨ c.isDigit = true := by
  unfold intToChars at h
  by_cases hz : z < 0
  · rw [if_pos hz] at h
    rcases List.mem_cons.mp h with rfl | h
    · exact Or.inl rfl
    · exact Or.inr (mem_natToChars_isDigit h)
  · rw [if_neg hz] at h
    exact Or.inr (mem_natToChars_isDigit h)

theorem not_mem_pad_natToChars {c : Char} (hc : c.isDigit = false) (n k : ℕ) :
    c ∉ padStartZeros (natToChars n) k := by
  intro h
  rw [mem_padStartZeros_natToChars_isDigit h] at hc
  exact Bool.noConfusion hc

theorem parseTimestamp_four_fields (n1 n2 n3 n4 : ℕ) :
    parseTimestamp (padStartZeros (natToChars n1) 2 ++ ':' ::
      padStartZeros (natToChars n2) 2 ++ ':' ::
        padStartZeros (natToChars n3) 2 ++ ',' ::
          padStartZeros (natToChars n4) 3) =
      some ((((n1 * 3600 + n2 * 60 + n3) * 1000 + n4 : ℕ) : ℤ)) := by
  have hA : padStartZeros (natToChars n1) 2 ++ ':' ::
      padStartZeros (natToChars n2) 2 ++ ':' ::
        padStartZeros (natToChars n3) 2 ++ ',' ::
          padStartZeros (natToChars n4) 3 =
      (padStartZeros (natToChars n1) 2 ++ ':' ::
        padStartZeros (natToChars n2) 2 ++ ':' ::
          padStartZeros (natToChars n3) 2) ++ ',' ::
            padStartZeros (natToChars n4) 3 := by
    simp
  have hcomma : ',' ∉ padStartZeros (natToChars n1) 2 ++ ':' ::
      padStartZeros (natToChars n2) 2 ++ ':' :: padStartZeros (natToChars n3) 2 := by
    simp only [List.mem_append, List.mem_cons]
    rintro ((h | (h | h)) | (h | h)) <;>
      first
      | exact not_mem_pad_natToChars (by decide) _ _ h
      | exact absurd h (by decide)
  rw [hA]
  unfold parseTimestamp
  rw [splitOn_append_sep _ hcomma,
    splitOn_no_sep (not_mem_pad_natToChars (show (',' : Char).isDigit = false by decide) n4 3)]
  have hsplit : (padStartZeros (natToChars n1) 2 ++ ':' ::
      padStartZeros (natToChars n2) 2 ++ ':' :: padStartZeros (natToChars n3) 2).splitOn ':' =
      [padStartZeros (natToChars n1) 2, padStartZeros (natToChars n2) 2,
        padStartZeros (natToChars n3) 2] := by
    simp only [List.append_assoc, List.cons_append]
    rw [splitOn_append_sep _
        (not_mem_pad_natToChars (show (':' : Char).isDigit = false by decide) n1 2),
      splitOn_append_sep _
        (not_mem_pad_natToChars (show (':' : Char).isDigit = false by decide) n2 2),
      splitOn_no_sep (not_mem_pad_natToChars (show (':' : Char).isDigit = false by decide) n3 2)]
  simp only [List.get?, Option.getD_some, hsplit, List.map_cons, jsNumber_padStartZeros,
    jsAdd, jsMul]
  congr 1

/-- Shared decomposition used for the C9 statement: every character of the
hours/minutes/seconds prefix and of the millisecond field of the two
formatters is a digit, `'0'`, `'-'`, or `':'`, hence never `','` or `'.'`. -/
theorem mem_pad_intToChars_ne_seps {z : ℤ} {k : ℕ} {c : Char}
    (h : c ∈ padStartZeros (intToChars z) k) : c ≠ ',' ∧ c ≠ '.' := by
  rcases mem_padStartZeros h with rfl | h
  · exact ⟨by decide, by decide⟩
  · rcases mem_intToChars h with rfl | hd
    · exact ⟨by decide, by decide⟩
    · exact ⟨isDigit_ne_of hd (by decide), isDigit_ne_of hd (by decide)⟩

/-! ## Lemmas about the shifting pipeline -/

theorem mem_numToChars {t : Option ℤ} {c : Char} (h : c ∈ numToChars t) :
    c = 'N' ∨ c = 'a' ∨ c = '-' ∨ c.isDigit = true := by
  cases t with
  | none =>
      simp only [numToChars, List.mem_cons] at h
      rcases h with rfl | rfl | rfl | h
      · exact Or.inl rfl
      · exact Or.inr (Or.inl rfl)
      · exact Or.inl rfl
      · simp at h
  | some z =>
      rcases mem_intToChars h with rfl | hd
      · exact Or.inr (Or.inr (Or.inl rfl))
      · exact Or.inr (Or.inr (Or.inr hd))

theorem pad_numToChars_ne_newline {t : Option ℤ} {k : ℕ} {c : Char}
    (h : c ∈ padStartZeros (numToChars t) k) : c ≠ '\n' := by
  rcases mem_padStartZeros h with rfl | hn
  · decide
  · rcases mem_numToChars hn with rfl | rfl | rfl | hd
    · decide
    · decide
    · decide
    · exact isDigit_ne_of hd (by decide)

theorem newline_not_mem_formatTimestamp {t : Option ℤ} {c : Char}
    (h : c ∈ formatTimestamp t) : c ≠ '\n' := by
  simp only [formatTimestamp, List.mem_append, List.mem_cons] at h
  rcases h with ((h | rfl | h) | rfl | h) | rfl | h <;>
    first
    | decide
    | exact pad_numToChars_ne_newline h

theorem newline_not_mem_shiftTimingLine {line out : List Char} {offsetMs : ℤ}
    (h : shiftTimingLine line offsetMs = some out) : '\n' ∉ out := by
  cases hp : (line.splitOn ' ').get? 0 with
  | none =>
      simp only [shiftTimingLine, hp] at h
      exact Option.noConfusion h
  | some s =>
      cases hq : (line.splitOn ' ').get? 2 with
      | none =>
          simp only [shiftTimingLine, hp, hq] at h
          exact Option.noConfusion h
      | some e =>
          simp only [shiftTimingLine, hp, hq, Option.some.injEq] at h
          intro hmem
          rw [← h] at hmem
          simp only [List.mem_append, List.mem_cons] at hmem
          rcases hmem with (hf | ha) | hf
          · exact newline_not_mem_formatTimestamp hf rfl
          · have harrow : ('\n' : Char) ∈ " --> ".toList := ha
            simp at harrow
          · exact newline_not_mem_formatTimestamp hf rfl

theorem shiftLines_forall₂ {offsetMs : ℤ} :
    ∀ {ls pls : List (List Char)}, shiftLines offsetMs ls = some pls →
      List.Forall₂ (fun l pl =>
        if includesArrow l = true then shiftTimingLine l offsetMs = some pl else pl = l) ls pls := by
  intro ls
  induction ls with
  | nil =>
      intro pls h
      obtain rfl : [] = pls := Option.some.inj h
      exact List.Forall₂.nil
  | cons line rest ih =>
      intro pls h
      rw [shiftLines] at h
      cases hl : (if includesArrow line = true then shiftTimingLine line offsetMs else some line) with
      | none => rw [hl] at h; exact Option.noConfusion h
      | some l =>
          rw [hl] at h
          cases hr : shiftLines offsetMs rest with
          | none => rw [hr] at h; exact Option.noConfusion h
          | some ls' =>
              rw [hr] at h
              obtain rfl : l :: ls' = pls := Option.some.inj h
              refine List.Forall₂.cons ?_ (ih hr)
              by_cases harrow : includesArrow line = true
              · rw [if_pos harrow] at hl
                rw [if_pos harrow]
                exact hl
              · rw [if_neg harrow] at hl
                rw [if_neg harrow]
                exact (Option.some.inj hl).symm

theorem shiftLines_newline_free {offsetMs : ℤ} :
    ∀ {ls pls : List (List Char)}, shiftLines offsetMs ls = some pls →
      (∀ l ∈ ls, '\n' ∉ l) → ∀ pl ∈ pls, '\n' ∉ pl := by
  intro ls
  induction ls with
  | nil =>
      intro pls h _
      obtain rfl : [] = pls := Option.some.inj h
      simp
  | cons line rest ih =>
      intro pls h hls
      rw [shiftLines] at h
      cases hl : (if includesArrow line = true then shiftTimingLine line offsetMs else some line) with
      | none => rw [hl] at h; exact Option.noConfusion h
      | some l =>
          rw [hl] at h
          cases hr : shiftLines offsetMs rest with
          | none => rw [hr] at h; exact Option.noConfusion h
          | some ls' =>
              rw [hr] at h
              obtain rfl : l :: ls' = pls := Option.some.inj h
              intro pl hpl
              rcases List.mem_cons.mp hpl with rfl | hpl
              · by_cases harrow : includesArrow line = true
                · rw [if_pos harrow] at hl
                  exact newline_not_mem_shiftTimingLine hl
                · rw [if_neg harrow] at hl
                  obtain rfl : line = pl := Option.some.inj hl
                  exact hls line (List.mem_cons_self _ _)
              · exact ih hr (fun l' hl' => hls l' (List.mem_cons_of_mem _ hl')) pl hpl

theorem shiftTimingLine_eq_none_iff {line : List Char} {offsetMs : ℤ} :
    shiftTimingLine line offsetMs = none ↔ (line.splitOn ' ').length < 3 := by
  obtain ⟨s, hp⟩ : ∃ s, (line.splitOn ' ').get? 0 = some s := by
    cases h0 : (line.splitOn ' ').get? 0 with
    | none =>
        rw [List.get?_eq_none] at h0
        have hne := splitOn_ne_nil ' ' line
        have hlen : 0 < (line.splitOn ' ').length := List.length_pos.mpr hne
        omega
    | some s => exact ⟨s, rfl⟩
  cases hq : (line.splitOn ' ').get? 2 with
  | none =>
      simp only [shiftTimingLine, hp, hq]
      rw [List.get?_eq_none] at hq
      simp only [true_iff]
      omega
  | some e =>
      simp only [shiftTimingLine, hp, hq]
      have hq' : ¬(line.splitOn ' ').length ≤ 2 := by
        intro hle
        rw [List.get?_eq_none.mpr hle] at hq
        exact Option.noConfusion hq
      constructor
      · intro h; exact Option.noConfusion h
      · intro h; omega

theorem shiftLines_eq_none_iff {offsetMs : ℤ} :
    ∀ {ls : List (List Char)}, shiftLines offsetMs ls = none ↔
      ∃ l ∈ ls, includesArrow l = true ∧ shiftTimingLine l offsetMs = none := by
  intro ls
  induction ls with
  | nil => simp [shiftLines]
  | cons line rest ih =>
      rw [shiftLines]
      constructor
      · intro h
        by_cases harrow : includesArrow line = true
        · rw [if_pos harrow] at h
          cases hl : shiftTimingLine line offsetMs with
          | none => exact ⟨line, List.mem_cons_self _ _, harrow, hl⟩
          | some l =>
              rw [hl] at h
              cases hr : shiftLines offsetMs rest with
              | none =>
                  obtain ⟨l', hm, ha, hn⟩ := ih.mp hr
                  exact ⟨l', List.mem_cons_of_mem _ hm, ha, hn⟩
              | some ls' =>
                  rw [hr] at h
                  simp at h
        · rw [if_neg harrow] at h
          cases hr : shiftLines offsetMs rest with
          | none =>
              obtain ⟨l', hm, ha, hn⟩ := ih.mp hr
              exact ⟨l', List.mem_cons_of_mem _ hm, ha, hn⟩
          | some ls' =>
              rw [hr] at h
              simp at h
      · rintro ⟨l', hm, ha, hn⟩
        rcases List.mem_cons.mp hm with rfl | hm
        · rw [if_pos ha, hn]
        · have hnone := ih.mpr ⟨l', hm, ha, hn⟩
          rw [hnone]
          cases hif : (if includesArrow line = true then shiftTimingLine line offsetMs
            else some line) <;> rfl

/-! ## Lemmas about the line wrapper -/

theorem greedyWrap_nil (maxLength : ℕ) (lines : List (List Char)) (cur : List Char) :
    greedyWrap maxLength [] lines cur =
      if cur ≠ [] then lines ++ [jsTrim cur] else lines := rfl

theorem greedyWrap_cons (maxLength : ℕ) (w : List Char) (ws : List (List Char))
    (lines : List (List Char)) (cur : List Char) :
    greedyWrap maxLength (w :: ws) lines cur =
      if (jsTrim (cur ++ ' ' :: w)).length > maxLength then
        (if cur ≠ [] then greedyWrap maxLength ws (lines ++ [jsTrim cur]) w
          else greedyWrap maxLength ws (lines ++ [w]) [])
      else greedyWrap maxLength ws lines (if cur ≠ [] then cur ++ ' ' :: w else w) := rfl

theorem jsTrim_length_le (l : List Char) : (jsTrim l).length ≤ l.length := by
  unfold jsTrim
  calc ((l.dropWhile Char.isWhitespace).reverse.dropWhile Char.isWhitespace).reverse.length
      = ((l.dropWhile Char.isWhitespace).reverse.dropWhile Char.isWhitespace).length := by
        rw [List.length_reverse]
    _ ≤ (l.dropWhile Char.isWhitespace).reverse.length :=
        (List.dropWhile_suffix _).sublist.length_le
    _ = (l.dropWhile Char.isWhitespace).length := by rw [List.length_reverse]
    _ ≤ l.length := (List.dropWhile_suffix _).sublist.length_le

theorem jsTrim_space_cons (w : List Char) : jsTrim (' ' :: w) = jsTrim w := by
  unfold jsTrim
  rw [List.dropWhile_cons, if_pos (by decide)]

theorem joinStr_ne_nil_of {c : Char} {ls : List (List Char)} (hne : ls ≠ [])
    (h : ∀ w ∈ ls, w ≠ []) : joinStr c ls ≠ [] := by
  cases ls with
  | nil => exact absurd rfl hne
  | cons w ws =>
      cases ws with
      | nil =>
          rw [joinStr_single]
          exact h w (List.mem_singleton_self w)
      | cons x ws' =>
          rw [joinStr_cons_cons]
          have hw := h w (List.mem_cons_self _ _)
          cases w with
          | nil => exact absurd rfl hw
          | cons a as => simp

theorem joinStr_length_cons (c : Char) (w : List Char) (ws : List (List Char)) :
    (joinStr c (w :: ws)).length =
      w.length + (if ws = [] then 0 else 1 + (joinStr c ws).length) := by
  cases ws with
  | nil => simp [joinStr_single]
  | cons x ws' =>
      simp [joinStr_cons_cons]
      omega

theorem head?_append_of_ne_nil {l l' : List Char} (h : l ≠ []) :
    (l ++ l').head? = l.head? := by
  cases l with
  | nil => exact absurd rfl h
  | cons a as => rfl

theorem getLast?_append_right {l l' : List Char} (h : l' ≠ []) :
    (l ++ l').getLast? = l'.getLast? := by
  rw [← List.head?_reverse, ← List.head?_reverse, List.reverse_append,
    head?_append_of_ne_nil (by simp [h])]

theorem jsTrim_eq_self_of_ends {l : List Char}
    (h1 : ∀ ch, l.head? = some ch → ch.isWhitespace = false)
    (h2 : ∀ ch, l.getLast? = some ch → ch.isWhitespace = false) : jsTrim l = l := by
  cases l with
  | nil => rfl
  | cons a as =>
      unfold jsTrim
      rw [List.dropWhile_cons, h1 a rfl]
      simp only [Bool.false_eq_true, if_false]
      cases hrev : (a :: as).reverse with
      | nil => simp at hrev
      | cons b bs =>
          rw [List.dropWhile_cons]
          have hb : b.isWhitespace = false := by
            apply h2
            rw [← List.head?_reverse, hrev]
            rfl
          rw [hb]
          simp only [Bool.false_eq_true, if_false]
          rw [← hrev, List.reverse_reverse]

theorem joinStr_head? {c : Char} {w : List Char} {ws : List (List Char)} (hw : w ≠ []) :
    (joinStr c (w :: ws)).head? = w.head? := by
  cases ws with
  | nil => rw [joinStr_single]
  | cons x ws' =>
      rw [joinStr_cons_cons]
      exact head?_append_of_ne_nil hw

theorem joinStr_getLast? {c : Char} :
    ∀ {ls : List (List Char)}, ls ≠ [] → (∀ w ∈ ls, w ≠ []) →
      ∃ wlast ∈ ls, (joinStr c ls).getLast? = wlast.getLast?
  | [], hne, _ => absurd rfl hne
  | [w], _, _ => ⟨w, List.mem_singleton_self w, by rw [joinStr_single]⟩
  | w :: x :: ls, _, h => by
      obtain ⟨wl, hwl, heq⟩ := @joinStr_getLast? c (x :: ls) (by simp)
        (fun v hv => h v (List.mem_cons_of_mem _ hv))
      refine ⟨wl, List.mem_cons_of_mem _ hwl, ?_⟩
      rw [joinStr_cons_cons, getLast?_append_right, ← heq]
      · have hjoin : joinStr c (x :: ls) ≠ [] :=
          joinStr_ne_nil_of (by simp) (fun v hv => h v (List.mem_cons_of_mem _ hv))
        have : (c :: joinStr c (x :: ls)).getLast? = ([c] ++ joinStr c (x :: ls)).getLast? := rfl
        rw [this, getLast?_append_right hjoin]
      · simp

theorem jsTrim_joinStr_clean {chunk : List (List Char)} (hne : chunk ≠ [])
    (hclean : ∀ w ∈ chunk, w ≠ [] ∧ ∀ ch ∈ w, ch.isWhitespace = false) :
    jsTrim (joinStr ' ' chunk) = joinStr ' ' chunk := by
  cases chunk with
  | nil => exact absurd rfl hne
  | cons w ws =>
      apply jsTrim_eq_self_of_ends
      · intro ch hch
        rw [joinStr_head? (hclean w (List.mem_cons_self _ _)).1] at hch
        exact (hclean w (List.mem_cons_self _ _)).2 ch (List.mem_of_mem_head? hch)
      · intro ch hch
        obtain ⟨wl, hwl, heq⟩ := @joinStr_getLast? ' ' (w :: ws) (by simp)
          (fun v hv => (hclean v hv).1)
        rw [heq] at hch
        exact (hclean wl hwl).2 ch (List.mem_of_mem_getLast? hch)

theorem greedyWrap_append_lines (maxLength : ℕ) :
    ∀ (ws lines : List (List Char)) (cur : List Char),
      greedyWrap maxLength ws lines cur = lines ++ greedyWrap maxLength ws [] cur := by
  intro ws
  induction ws with
  | nil =>
      intro lines cur
      rw [greedyWrap_nil, greedyWrap_nil]
      by_cases hc : cur ≠ [] <;> simp [hc]
  | cons w ws ih =>
      intro lines cur
      rw [greedyWrap_cons, greedyWrap_cons]
      by_cases ht : (jsTrim (cur ++ ' ' :: w)).length > maxLength
      · rw [if_pos ht, if_pos ht]
        by_cases hc : cur ≠ []
        · rw [if_pos hc, if_pos hc, ih (lines ++ [jsTrim cur]) w, ih ([] ++ [jsTrim cur]) w]
          simp
        · rw [if_neg hc, if_neg hc, ih (lines ++ [w]) [], ih ([] ++ [w]) []]
          simp
      · rw [if_neg ht, if_neg ht, ih lines _]

theorem greedyWrap_ne_nil (maxLength : ℕ) :
    ∀ (ws : List (List Char)) (cur : List Char),
      (cur ≠ [] ∨ ∃ w ∈ ws, w ≠ []) → greedyWrap maxLength ws [] cur ≠ [] := by
  intro ws
  induction ws with
  | nil =>
      intro cur h
      rcases h with h | h
      · rw [greedyWrap_nil, if_pos h]
        simp
      · simp at h
  | cons w ws ih =>
      intro cur h
      rw [greedyWrap_cons]
      by_cases ht : (jsTrim (cur ++ ' ' :: w)).length > maxLength
      · rw [if_pos ht]
        by_cases hc : cur ≠ []
        · rw [if_pos hc, greedyWrap_append_lines]
          simp
        · rw [if_neg hc, greedyWrap_append_lines]
          simp
      · rw [if_neg ht]
        apply ih
        by_cases hc : cur ≠ []
        · rw [if_pos hc]
          left
          simp
        · rw [if_neg hc]
          by_cases hw : w = []
          · rcases h with h | ⟨v, hv, hvne⟩
            · exact absurd h hc
            · rcases List.mem_cons.mp hv with rfl | hv
              · exact absurd hvne (by simp [hw])
              · exact Or.inr ⟨v, hv, hvne⟩
          · exact Or.inl hw

theorem greedyWrap_length_le (maxLength : ℕ) :
    ∀ (ws : List (List Char)) (cur : List Char),
      (greedyWrap maxLength ws [] cur).length ≤ ws.length + (if cur = [] then 0 else 1) := by
  intro ws
  induction ws with
  | nil =>
      intro cur
      rw [greedyWrap_nil]
      by_cases hc : cur = [] <;> simp [hc]
  | cons w ws ih =>
      intro cur
      rw [greedyWrap_cons]
      by_cases ht : (jsTrim (cur ++ ' ' :: w)).length > maxLength
      · rw [if_pos ht]
        by_cases hc : cur = []
        · subst hc
          rw [if_neg (by simp), greedyWrap_append_lines]
          have hih := ih ([] : List Char)
          simp at hih ⊢
          omega
        · rw [if_pos hc, greedyWrap_append_lines]
          have hih := ih w
          simp only [List.length_append, List.length_cons, List.length_nil] at hih ⊢
          by_cases hw : w = [] <;> simp [hc, hw] at hih ⊢ <;> omega
      · rw [if_neg ht]
        by_cases hc : cur = []
        · have hih := ih (if cur ≠ [] then cur ++ ' ' :: w else w)
          rw [if_neg (by simp [hc])] at hih ⊢
          by_cases hw : w = [] <;> simp [hc, hw] at hih ⊢ <;> omega
        · have hih := ih (if cur ≠ [] then cur ++ ' ' :: w else w)
          rw [if_pos hc] at hih ⊢
          have hne : cur ++ ' ' :: w ≠ [] := by simp
          simp [hne, hc] at hih ⊢
          omega

theorem greedyWrap_join (maxLength : ℕ) :
    ∀ (ws chunk : List (List Char)),
      (∀ w ∈ ws, w ≠ [] ∧ ∀ ch ∈ w, ch.isWhitespace = false) →
      (∀ w ∈ chunk, w ≠ [] ∧ ∀ ch ∈ w, ch.isWhitespace = false) →
      joinStr ' ' (greedyWrap maxLength ws [] (joinStr ' ' chunk)) =
        joinStr ' ' (chunk ++ ws) := by
  intro ws
  induction ws with
  | nil =>
      intro chunk _ hcl
      rw [greedyWrap_nil]
      by_cases hch : chunk = []
      · subst hch
        simp [joinStr_nil]
      · have hJ : joinStr ' ' chunk ≠ [] := joinStr_ne_nil_of hch (fun w hw => (hcl w hw).1)
        rw [if_pos hJ, List.nil_append, joinStr_single, jsTrim_joinStr_clean hch hcl,
          List.append_nil]
  | cons w ws ih =>
      intro chunk hws hcl
      have hwclean := hws w (List.mem_cons_self _ _)
      have hwsclean : ∀ v ∈ ws, v ≠ [] ∧ ∀ ch ∈ v, ch.isWhitespace = false :=
        fun v hv => hws v (List.mem_cons_of_mem _ hv)
      rw [greedyWrap_cons]
      by_cases ht : (jsTrim (joinStr ' ' chunk ++ ' ' :: w)).length > maxLength
      · rw [if_pos ht]
        by_cases hch : chunk = []
        · subst hch
          rw [joinStr_nil, if_neg (by simp), greedyWrap_append_lines]
          have hIH := ih [] hwsclean (by simp)
          rw [joinStr_nil] at hIH
          simp only [List.nil_append] at hIH ⊢
          by_cases hws0 : ws = []
          · subst hws0
            rw [greedyWrap_nil, if_neg (by simp)]
            simp
          · have hG : greedyWrap maxLength ws [] [] ≠ [] := by
              apply greedyWrap_ne_nil
              right
              obtain ⟨v, vs, hvs⟩ := List.exists_cons_of_ne_nil hws0
              refine ⟨v, ?_, (hwsclean v ?_).1⟩ <;> rw [hvs] <;>
                exact List.mem_cons_self _ _
            rw [joinStr_append ' ' [w] _ (by simp) hG, joinStr_single, hIH]
            obtain ⟨x, ws'', rfl⟩ := List.exists_cons_of_ne_nil hws0
            rw [joinStr_cons_cons]
        · have hJ : joinStr ' ' chunk ≠ [] := joinStr_ne_nil_of hch (fun v hv => (hcl v hv).1)
          rw [if_pos hJ, greedyWrap_append_lines, jsTrim_joinStr_clean hch hcl]
          have hIH := ih [w] hwsclean (by
            intro v hv
            rw [List.mem_singleton] at hv
            subst hv
            exact hwclean)
          rw [joinStr_single] at hIH
          have hG : greedyWrap maxLength ws [] w ≠ [] :=
            greedyWrap_ne_nil maxLength ws w (Or.inl hwclean.1)
          have hsplit : ([] ++ [joinStr ' ' chunk]) ++ greedyWrap maxLength ws [] w =
              [joinStr ' ' chunk] ++ greedyWrap maxLength ws [] w := by simp
          rw [hsplit, joinStr_append ' ' [joinStr ' ' chunk] _ (by simp) hG, joinStr_single,
            hIH, List.singleton_append, joinStr_append ' ' chunk (w :: ws) hch (by simp)]
      · rw [if_neg ht]
        by_cases hch : chunk = []
        · subst hch
          rw [joinStr_nil, if_neg (by simp)]
          have hIH := ih [w] hwsclean (by
            intro v hv
            rw [List.mem_singleton] at hv
            subst hv
            exact hwclean)
          rw [joinStr_single] at hIH
          rw [hIH, List.nil_append, List.singleton_append]
        · have hJ : joinStr ' ' chunk ≠ [] := joinStr_ne_nil_of hch (fun v hv => (hcl v hv).1)
          rw [if_pos hJ]
          have hcur' : joinStr ' ' chunk ++ ' ' :: w = joinStr ' ' (chunk ++ [w]) := by
            rw [joinStr_append ' ' chunk [w] hch (by simp), joinStr_single]
          rw [hcur']
          have hIH := ih (chunk ++ [w]) hwsclean (by
            intro v hv
            rcases List.mem_append.mp hv with hv | hv
            · exact hcl v hv
            · rw [List.mem_singleton] at hv
              subst hv
              exact hwclean)
          rw [hIH, List.append_assoc, List.singleton_append]

theorem greedyWrap_short (maxLength : ℕ) :
    ∀ (ws : List (List Char)) (cur : List Char),
      (joinStr ' ' (if cur = [] then ws else cur :: ws)).length ≤ maxLength →
      (greedyWrap maxLength ws [] cur).length ≤ 1 := by
  intro ws
  induction ws with
  | nil =>
      intro cur _
      rw [greedyWrap_nil]
      by_cases hc : cur ≠ [] <;> simp [hc]
  | cons w ws ih =>
      intro cur h
      have hbound : (jsTrim (cur ++ ' ' :: w)).length ≤ maxLength := by
        by_cases hc : cur = []
        · subst hc
          rw [if_pos rfl, joinStr_length_cons] at h
          rw [List.nil_append, jsTrim_space_cons]
          have := jsTrim_length_le w
          by_cases hws0 : ws = [] <;> simp [hws0] at h <;> omega
        · rw [if_neg hc, joinStr_length_cons, joinStr_length_cons] at h
          simp only [List.cons_ne_nil, if_neg, ite_false] at h
          have h1 := jsTrim_length_le (cur ++ ' ' :: w)
          rw [List.length_append, List.length_cons] at h1
          by_cases hws0 : ws = [] <;> simp [hws0] at h <;> omega
      rw [greedyWrap_cons, if_neg (by omega)]
      by_cases hc : cur = []
      · subst hc
        rw [if_neg (show ¬(([] : List Char) ≠ []) by simp)]
        apply ih
        rw [if_pos rfl] at h
        by_cases hw : w = []
        · subst hw
          rw [if_pos rfl]
          rw [joinStr_length_cons] at h
          have hle : (joinStr ' ' ws).length ≤ maxLength := by
            by_cases hws0 : ws = [] <;> simp [hws0, joinStr_nil] at h ⊢ <;> omega
          exact hle
        · rw [if_neg hw]
          exact h
      · rw [if_pos hc]
        apply ih
        rw [if_neg hc] at h
        rw [if_neg (show ¬(cur ++ ' ' :: w = []) by simp)]
        rw [joinStr_length_cons, joinStr_length_cons] at h
        rw [joinStr_length_cons]
        simp only [List.length_append, List.length_cons]
        by_cases hws0 : ws = [] <;> simp [hws0] at h ⊢ <;> omega

/-! ## Lemmas about the track builder and the translation merge -/

theorem mapWithIndex_length {α β : Type} (f : ℕ → α → β) :
    ∀ (i : ℕ) (l : List α), (mapWithIndex f i l).length = l.length := by
  intro i l
  induction l generalizing i with
  | nil => rfl
  | cons a as ih => simp [mapWithIndex, ih]

theorem mem_mapWithIndex {α β : Type} {f : ℕ → α → β} :
    ∀ {i : ℕ} {l : List α} {b : β}, b ∈ mapWithIndex f i l → ∃ j a, b = f j a := by
  intro i l
  induction l generalizing i with
  | nil => intro b hb; simp [mapWithIndex] at hb
  | cons a as ih =>
      intro b hb
      rw [mapWithIndex] at hb
      rcases List.mem_cons.mp hb with rfl | hb
      · exact ⟨i, a, rfl⟩
      · exact ih hb

theorem mapWithIndex_joinStr_blocks :
    ∀ (i : ℕ) (segments : List Segment),
      mapWithIndex (fun index segment => joinStr '\n' (srtBlockLines index segment)) i segments =
        (mapWithIndex srtBlockLines i segments).map (joinStr '\n') := by
  intro i segments
  induction segments generalizing i with
  | nil => rfl
  | cons seg segs ih => simp [mapWithIndex, ih]

theorem joinStr_map_flatten {c : Char} :
    ∀ (ls : List (List (List Char))), (∀ l ∈ ls, l ≠ []) →
      joinStr c (ls.map (joinStr c)) = joinStr c ls.flatten
  | [], _ => rfl
  | [l], _ => by simp [joinStr_single]
  | l :: l' :: ls, h => by
      have hrec := @joinStr_map_flatten c (l' :: ls)
        (fun v hv => h v (List.mem_cons_of_mem _ hv))
      have hl : l ≠ [] := h l (List.mem_cons_self _ _)
      have hflat : (l' :: ls).flatten ≠ [] := by
        rw [List.flatten_cons]
        have hl' : l' ≠ [] := h l' (List.mem_cons_of_mem _ (List.mem_cons_self _ _))
        cases l' with
        | nil => exact absurd rfl hl'
        | cons x xs => simp
      rw [List.map_cons, List.map_cons, joinStr_cons_cons, ← List.map_cons, hrec,
        show (l :: l' :: ls).flatten = l ++ (l' :: ls).flatten from rfl,
        joinStr_append c l _ hl hflat]

theorem srtBlockLines_ne_nil (i : ℕ) (seg : Segment) : srtBlockLines i seg ≠ [] := by
  simp [srtBlockLines]

/-! ## Claim theorems -/

/-- C1 (counterexample): the claim asserts that every timestamp format
operation clamps negative input to zero, and in particular that formatting
`-5` seconds yields `"00:00:00,000"`.  The builder's SRT formatter
(`SubtitleWriter._formatSRTTimestamp`) does not clamp: on `-5` seconds it
emits `"-1:-1:-5,000"`. -/
theorem c1_counterexample :
    formatSRTTimestamp (-5) = "-1:-1:-5,000".toList ∧
      formatSRTTimestamp (-5) ≠ "00:00:00,000".toList := by
  have h : Rat.floor ((-5 : ℚ) * 1000) = -5000 := by norm_num [Rat.floor_def']
  constructor
  · simp only [formatSRTTimestamp, h]
    decide
  · simp only [formatSRTTimestamp, h]
    decide

/-- C1 (amended): only the shift utility's millisecond-based formatter
(`shift-timing.js` `formatTimestamp`) clamps: every negative total-millisecond
input is formatted as `"00:00:00,000"`.  The builder's seconds-based
SRT/VTT formatters perform no such clamp (see the counterexample). -/
theorem c1_amended (m : ℤ) (hm : m < 0) :
    formatTimestamp (some m) = "00:00:00,000".toList := by
  simp only [formatTimestamp]
  rw [if_pos (show jsLtZero (some m) = true by simp [jsLtZero, hm])]
  decide

/-- C1 witness: the amended clamp theorem applied at `-5000` ms
(`-5` seconds scaled by the caller). -/
theorem c1_witness :
    (-5000 : ℤ) < 0 ∧ formatTimestamp (some (-5000)) = "00:00:00,000".toList :=
  ⟨by decide, c1_amended (-5000) (by decide)⟩

/-- C2 (counterexample): the claim asserts that shifting a track whose timing
line contains the malformed token `"bad-timestamp"` fails with a
`MalformedTimestamp` condition.  The code has no such condition: the parse
yields `NaN`, and the shift succeeds, emitting
`"00:00:04,000 --> NaN:NaN:NaN,NaN\n"`. -/
theorem c2_counterexample :
    shiftSeconds "00:00:01,000 --> bad-timestamp\n".toList 3 =
        some "00:00:04,000 --> NaN:NaN:NaN,NaN\n".toList ∧
      shiftSeconds "00:00:01,000 --> bad-timestamp\n".toList 3 ≠ none := by
  have h : Rat.floor ((3 : ℚ) * 1000 + 1 / 2) = 3000 := by norm_num [Rat.floor_def']
  constructor
  · simp only [shiftSeconds, h]
    decide
  · simp only [shiftSeconds, h]
    decide

/-- C2 (amended): a timestamp token that does not match `HH:MM:SS,mmm`
parses to `NaN` and the shift completes, rendering `NaN` timestamps, instead
of failing; the shift aborts (with a `TypeError`, modelled `none`) exactly
when some recognized timing line has fewer than three space-separated
fields.  In particular `shift("00:00:01,000 --> bad-timestamp\n", 3)`
succeeds with output `"00:00:04,000 --> NaN:NaN:NaN,NaN\n"`. -/
theorem c2_amended :
    (∀ (content : List Char) (offsetMs : ℤ), shiftSubtitles content offsetMs = none ↔
      ∃ line ∈ content.splitOn '\n',
        includesArrow line = true ∧ (line.splitOn ' ').length < 3) ∧
    parseTimestamp "bad-timestamp".toList = none ∧
    shiftSeconds "00:00:01,000 --> bad-timestamp\n".toList 3 =
      some "00:00:04,000 --> NaN:NaN:NaN,NaN\n".toList := by
  refine ⟨?_, by decide, ?_⟩
  · intro content offsetMs
    unfold shiftSubtitles
    rw [Option.map_eq_none', shiftLines_eq_none_iff]
    simp only [shiftTimingLine_eq_none_iff]
  · have h : Rat.floor ((3 : ℚ) * 1000 + 1 / 2) = 3000 := by norm_num [Rat.floor_def']
    simp only [shiftSeconds, h]
    decide

/-- C3 (counterexample): the claim asserts that a line is treated as a timing
line if and only if it contains `" --> "` (with the surrounding spaces), all
other lines passing through byte-identical.  The code only tests
`includes('-->')`: the line `"x -->y z"` does not contain `" --> "`, yet the
shift rewrites it to `"NaN:NaN:NaN,NaN --> NaN:NaN:NaN,NaN"`. -/
theorem c3_counterexample :
    shiftSubtitles "x -->y z".toList 0 =
        some "NaN:NaN:NaN,NaN --> NaN:NaN:NaN,NaN".toList ∧
      containsSub " --> ".toList "x -->y z".toList = false ∧
      "NaN:NaN:NaN,NaN --> NaN:NaN:NaN,NaN".toList ≠ "x -->y z".toList := by
  decide

/-- C3 (amended): a line is recognized as a timing line if and only if it
contains the substring `"-->"` (no surrounding spaces required).  Whenever a
shift succeeds, its output splits into exactly one line per input line, in
order; every line not containing `"-->"` is reproduced byte-identically at
its original position, and every line containing `"-->"` is replaced by the
rewritten timing line. -/
theorem c3_amended (content : List Char) (offsetMs : ℤ) (out : List Char)
    (h : shiftSubtitles content offsetMs = some out) :
    List.Forall₂ (fun l pl =>
      if includesArrow l = true then shiftTimingLine l offsetMs = some pl else pl = l)
      (content.splitOn '\n') (out.splitOn '\n') := by
  unfold shiftSubtitles at h
  obtain ⟨pls, hpls, hout⟩ := Option.map_eq_some'.mp h
  have hfa := shiftLines_forall₂ hpls
  have hnl : ∀ pl ∈ pls, '\n' ∉ pl :=
    shiftLines_newline_free hpls (fun l hl => splitOn_sep_not_mem '\n' content l hl)
  have hne : pls ≠ [] := by
    intro hnil
    subst hnil
    have hlen := hfa.length_eq
    simp only [List.length_nil] at hlen
    exact splitOn_ne_nil '\n' content (List.length_eq_zero.mp hlen)
  rw [← hout, splitOn_joinStr hne hnl]
  exact hfa

/-- C3 witness: the amended pass-through law applied to a concrete
three-line track shifted by 1000 ms. -/
theorem c3_witness :
    List.Forall₂ (fun l pl =>
      if includesArrow l = true then shiftTimingLine l 1000 = some pl else pl = l)
      ("1\n00:00:01,000 --> 00:00:02,000\nHello\n".toList.splitOn '\n')
      ("1\n00:00:02,000 --> 00:00:03,000\nHello\n".toList.splitOn '\n') :=
  c3_amended _ 1000 _ (by decide)

/-- C4 (counterexample): the claim asserts the wrap operation always returns
1 or 2 lines for every text and positive maxWidth.  For an over-long text
consisting only of spaces the greedy loop accumulates nothing and the
function returns the empty line list: `wrap("  ", 1) = []` (0 lines). -/
theorem c4_counterexample :
    splitTextIntoLines "  ".toList 1 = [] ∧
      ¬(1 ≤ (splitTextIntoLines "  ".toList 1).length) := by
  decide

/-- C4 (amended): the wrap operation never returns more than 2 lines, and it
returns at least 1 line whenever the text fits within `maxWidth` or contains
at least one non-space character; an over-long all-space text yields 0 lines
(see the counterexample). -/
theorem c4_amended (text : List Char) (maxLength : ℕ) (hpos : 0 < maxLength) :
    (splitTextIntoLines text maxLength).length ≤ 2 ∧
      ((text.length ≤ maxLength ∨ ∃ c ∈ text, c ≠ ' ') →
        1 ≤ (splitTextIntoLines text maxLength).length) := by
  constructor
  · by_cases hs : text.length ≤ maxLength
    · simp [splitTextIntoLines, hs]
    · simp only [splitTextIntoLines, if_neg hs]
      by_cases hgt : (greedyWrap maxLength (text.splitOn ' ') [] []).length > 2
      · rw [if_pos hgt]
        simp
      · rw [if_neg hgt]
        omega
  · intro hor
    by_cases hs : text.length ≤ maxLength
    · simp [splitTextIntoLines, hs]
    · simp only [splitTextIntoLines, if_neg hs]
      have hex : ∃ c ∈ text, c ≠ ' ' := by
        rcases hor with hs' | hex
        · exact absurd hs' hs
        · exact hex
      obtain ⟨c, hc, hcne⟩ := hex
      have hword : ∃ w ∈ text.splitOn ' ', w ≠ [] := by
        have hmem : c ∈ joinStr ' ' (text.splitOn ' ') := by
          rw [joinStr_splitOn]
          exact hc
        rcases mem_joinStr hmem with ⟨w, hw, hcw⟩ | rfl
        · exact ⟨w, hw, List.ne_nil_of_mem hcw⟩
        · exact absurd rfl hcne
      by_cases hgt : (greedyWrap maxLength (text.splitOn ' ') [] []).length > 2
      · rw [if_pos hgt]
        simp
      · rw [if_neg hgt]
        have hne := greedyWrap_ne_nil maxLength (text.splitOn ' ') [] (Or.inr hword)
        have hlen := List.length_pos.mpr hne
        omega

/-- C4 witness: the amended bound applied at `wrap("Hi there", 42)`. -/
theorem c4_witness :
    0 < 42 ∧
      ((splitTextIntoLines "Hi there".toList 42).length ≤ 2 ∧
        (("Hi there".toList.length ≤ 42 ∨ ∃ c ∈ "Hi there".toList, c ≠ ' ') →
          1 ≤ (splitTextIntoLines "Hi there".toList 42).length)) :=
  ⟨by decide, c4_amended _ 42 (by decide)⟩

/-- C6 (confirmed): whenever the greedy pass over the word list of a text
produces more than 2 lines, the wrap operation discards that result and
returns exactly the 2 lines obtained by splitting the original word list at
`ceil(wordCount/2)` (`(n+1)/2` words in the first line), regardless of the
resulting widths. -/
theorem c6_midpoint_fallback (text : List Char) (maxLength : ℕ)
    (hgt : 2 < (greedyWrap maxLength (text.splitOn ' ') [] []).length) :
    splitTextIntoLines text maxLength =
      [joinStr ' ' ((text.splitOn ' ').take (((text.splitOn ' ').length + 1) / 2)),
        joinStr ' ' ((text.splitOn ' ').drop (((text.splitOn ' ').length + 1) / 2))] := by
  have hlong : ¬text.length ≤ maxLength := by
    intro hshort
    have hb : (joinStr ' '
        (if ([] : List Char) = [] then text.splitOn ' ' else [] :: text.splitOn ' ')).length ≤
        maxLength := by
      rw [if_pos rfl, joinStr_splitOn]
      exact hshort
    have hle := greedyWrap_short maxLength (text.splitOn ' ') [] hb
    omega
  simp only [splitTextIntoLines, if_neg hlong, if_pos hgt]

/-- C6 witness: the midpoint fallback applied at `wrap("aaaa bbbb cccc", 5)`,
whose greedy pass yields 3 lines. -/
theorem c6_witness :
    2 < (greedyWrap 5 ("aaaa bbbb cccc".toList.splitOn ' ') [] []).length ∧
      splitTextIntoLines "aaaa bbbb cccc".toList 5 =
        [joinStr ' ' (("aaaa bbbb cccc".toList.splitOn ' ').take
            ((("aaaa bbbb cccc".toList.splitOn ' ').length + 1) / 2)),
          joinStr ' ' (("aaaa bbbb cccc".toList.splitOn ' ').drop
            ((("aaaa bbbb cccc".toList.splitOn ' ').length + 1) / 2))] :=
  ⟨by decide, c6_midpoint_fallback _ 5 (by decide)⟩

/-- C10 (confirmed): for a text made of non-empty whitespace-free words
separated by single spaces and a positive maxWidth, joining the wrap
operation's output lines with single spaces reproduces the original text
exactly, on both the greedy path and the 2-line fallback path. -/
theorem c10_wrap_preserves_text (text : List Char) (maxLength : ℕ) (hpos : 0 < maxLength)
    (hwords : ∀ w ∈ text.splitOn ' ', w ≠ [] ∧ ∀ c ∈ w, c.isWhitespace = false) :
    joinStr ' ' (splitTextIntoLines text maxLength) = text := by
  by_cases hs : text.length ≤ maxLength
  · simp only [splitTextIntoLines, if_pos hs, joinStr_single]
  · simp only [splitTextIntoLines, if_neg hs]
    by_cases hgt : (greedyWrap maxLength (text.splitOn ' ') [] []).length > 2
    · rw [if_pos hgt]
      have hn3 : 3 ≤ (text.splitOn ' ').length := by
        have hbound := greedyWrap_length_le maxLength (text.splitOn ' ') []
        simp at hbound
        omega
      have htake : (text.splitOn ' ').take (((text.splitOn ' ').length + 1) / 2) ≠ [] := by
        intro hnil
        have hlen := List.length_take (((text.splitOn ' ').length + 1) / 2) (text.splitOn ' ')
        rw [hnil] at hlen
        simp only [List.length_nil] at hlen
        omega
      have hdrop : (text.splitOn ' ').drop (((text.splitOn ' ').length + 1) / 2) ≠ [] := by
        intro hnil
        have hlen := List.length_drop (((text.splitOn ' ').length + 1) / 2) (text.splitOn ' ')
        rw [hnil] at hlen
        simp only [List.length_nil] at hlen
        omega
      rw [joinStr_cons_cons, joinStr_single, ← joinStr_append ' ' _ _ htake hdrop,
        List.take_append_drop, joinStr_splitOn]
    · rw [if_neg hgt]
      have hjoin := greedyWrap_join maxLength (text.splitOn ' ') [] hwords (by simp)
      rw [joinStr_nil] at hjoin
      simp only [List.nil_append] at hjoin
      rw [hjoin, joinStr_splitOn]

/-- C10 witness: join-preservation applied at `wrap("aaaa bbbb cccc", 5)`
(which exercises the fallback path). -/
theorem c10_witness :
    0 < 5 ∧
      (∀ w ∈ "aaaa bbbb cccc".toList.splitOn ' ',
        w ≠ [] ∧ ∀ c ∈ w, c.isWhitespace = false) ∧
      joinStr ' ' (splitTextIntoLines "aaaa bbbb cccc".toList 5) = "aaaa bbbb cccc".toList :=
  ⟨by decide, by decide, c10_wrap_preserves_text _ 5 (by decide) (by decide)⟩

/-- C5 (counterexample): the claim asserts the round-trip
`parse(format(x, sep)) = floor(x*1000)` for either separator.  The only parse
operation in the code (`shift-timing.js` `parseTimestamp`) splits on `','`,
so a period-separated (VTT) timestamp loses its millisecond field
(`Number(undefined) = NaN`): at `x = 0`, `parse(format(0, '.'))` is `NaN`,
not `floor(0) = 0`. -/
theorem c5_counterexample :
    parseTimestamp (formatVTTTimestamp 0) = none ∧
      parseTimestamp (formatVTTTimestamp 0) ≠ some (Rat.floor ((0 : ℚ) * 1000)) := by
  have h : Rat.floor ((0 : ℚ) * 1000) = ((0 : ℕ) : ℤ) := by norm_num [Rat.floor_def']
  rw [h]
  constructor
  · simp only [formatVTTTimestamp, h]
    decide
  · simp only [formatVTTTimestamp, h]
    decide

/-- C5 (amended): for the comma separator the round-trip law holds: for every
non-negative rational `x` (millisecond precision not even required),
`parseTimestamp (formatSRTTimestamp x) = floor(x*1000)`. -/
theorem c5_amended (x : ℚ) (hx : 0 ≤ x) :
    parseTimestamp (formatSRTTimestamp x) = some (Rat.floor (x * 1000)) := by
  have h0 : (0 : ℤ) ≤ Rat.floor (x * 1000) := Rat.le_floor.mpr (by positivity)
  obtain ⟨N, hN⟩ := Int.eq_ofNat_of_zero_le h0
  rw [formatSRTTimestamp_eq_of_floor hN, parseTimestamp_four_fields, hN]
  congr 1
  omega

/-- C5 witness: the amended round-trip applied at `x = 3/2`. -/
theorem c5_witness :
    (0 : ℚ) ≤ 3 / 2 ∧
      parseTimestamp (formatSRTTimestamp (3 / 2)) = some (Rat.floor ((3 / 2 : ℚ) * 1000)) :=
  ⟨by norm_num, c5_amended (3 / 2) (by norm_num)⟩

/-- C9 (confirmed): for every seconds value the SRT (comma) and VTT (period)
formatters produce identical character sequences except for the single
sub-second separator character, which is `','` in one and `'.'` in the other
(and that character occurs nowhere else in either output). -/
theorem c9_formatters_differ_only_in_separator (x : ℚ) :
    ∃ a b : List Char,
      formatSRTTimestamp x = a ++ ',' :: b ∧
        formatVTTTimestamp x = a ++ '.' :: b ∧
          (∀ c ∈ a, c ≠ ',' ∧ c ≠ '.') ∧ (∀ c ∈ b, c ≠ ',' ∧ c ≠ '.') := by
  refine ⟨padStartZeros (intToChars ((((Rat.floor (x * 1000)).fdiv 1000).fdiv 60).fdiv 60)) 2 ++
      ':' :: padStartZeros (intToChars ((((Rat.floor (x * 1000)).fdiv 1000).fdiv 60).tmod 60)) 2 ++
        ':' :: padStartZeros (intToChars (((Rat.floor (x * 1000)).fdiv 1000).tmod 60)) 2,
    padStartZeros (intToChars ((Rat.floor (x * 1000)).tmod 1000)) 3, ?_, ?_, ?_, ?_⟩
  · simp only [formatSRTTimestamp]
  · simp only [formatVTTTimestamp]
  · intro c hc
    simp only [List.mem_append, List.mem_cons] at hc
    rcases hc with (h | (rfl | h)) | (rfl | h) <;>
      first
      | exact mem_pad_intToChars_ne_seps h
      | exact ⟨by decide, by decide⟩
  · intro c hc
    exact mem_pad_intToChars_ne_seps hc

/-- C7 (confirmed): the SRT builder output is the newline-join of the
concatenated per-segment block lines — for the i-th input segment (in input
order) the lines `[index line (i+1), "{start} --> {end}" timing line,
wrapped text lines, blank separator line]` — and there are exactly
`segments.length` such blocks. -/
theorem c7_generateSRT_structure (segments : List Segment) :
    generateSRT segments =
        joinStr '\n' (mapWithIndex srtBlockLines 0 segments).flatten ∧
      (mapWithIndex srtBlockLines 0 segments).length = segments.length := by
  constructor
  · unfold generateSRT
    rw [mapWithIndex_joinStr_blocks, joinStr_map_flatten]
    intro l hl
    obtain ⟨j, seg, rfl⟩ := mem_mapWithIndex hl
    exact srtBlockLines_ne_nil j seg
  · exact mapWithIndex_length _ 0 segments

/-- C8 (confirmed): whenever the translations parsed out of a response do not
number exactly `segments.length`, the merge returns a list of exactly
`segments.length` segments in which every position not covered by a parsed
translation (positions from `parsed.length` up) carries the original segment
unchanged (text and timing), rather than failing. -/
theorem c8_translate_merge_fallback (segments : List Segment) (response : List Char)
    (hmis : (parsedTranslations segments response).length ≠ segments.length) :
    (translateAllSegments segments response).length = segments.length ∧
      ∀ i, (parsedTranslations segments response).length ≤ i →
        ∀ hi : i < segments.length,
          (translateAllSegments segments response).get? i = segments.get? i := by
  unfold translateAllSegments
  rw [if_pos hmis]
  constructor
  · exact List.length_ofFn _
  · intro i hle hi
    rw [List.get?_eq_get (by rw [List.length_ofFn]; exact hi), List.get_ofFn,
      List.get?_eq_get hi]
    have hnone : (parsedTranslations segments response).get? i = none :=
      List.get?_eq_none.mpr hle
    rw [List.get?_eq_getElem?] at hnone
    simp [hnone]

/-- C8 witness: the fallback merge applied to one segment and an unparseable
response. -/
theorem c8_witness :
    (parsedTranslations [⟨1, 1, 4, "Hello".toList, none, none⟩] "garbage".toList).length ≠
        ([(⟨1, 1, 4, "Hello".toList, none, none⟩ : Segment)]).length ∧
      ((translateAllSegments [⟨1, 1, 4, "Hello".toList, none, none⟩] "garbage".toList).length =
          ([(⟨1, 1, 4, "Hello".toList, none, none⟩ : Segment)]).length ∧
        ∀ i, (parsedTranslations [⟨1, 1, 4, "Hello".toList, none, none⟩]
            "garbage".toList).length ≤ i →
          ∀ hi : i < ([(⟨1, 1, 4, "Hello".toList, none, none⟩ : Segment)]).length,
            (translateAllSegments [⟨1, 1, 4, "Hello".toList, none, none⟩]
                "garbage".toList).get? i =
              ([(⟨1, 1, 4, "Hello".toList, none, none⟩ : Segment)]).get? i) :=
  ⟨by decide, c8_translate_merge_fallback _ _ (by decide)⟩

end SyncScribe
